import Mathlib

/-!
Verification of the `devrun` scripting-language core (a small DSL interpreter
written in Rust) against its natural-language specification.

The development shallowly embeds the relevant source functions:

* `src/src/parser.rs`: `preprocess_escaped_newlines` (backslash line
  continuation) and `parse_command` (command-text reconstruction from
  grammar tokens), plus the argument extraction of the `function_call`
  branch of `parse_statement`;
* `src/src/interpreter.rs`: the `Interpreter` state (variable, full-function
  and simple-function tables), `substitute_args`, `execute_statement`,
  `execute`, `execute_command` and `call_function_without_parens`;
* `src/src/ast.rs`: `Statement` and `Expression`.

Rust strings are modelled as Lean `String` (operated on through their
character lists), Rust `HashMap` as an association list where insertion
prepends and lookup takes the first hit (last write wins, as for `HashMap`
overwrite), and the external shell collaborator as an oracle
`shell : String → Int` giving each command's exit status.  Executing a
command appends it to an explicit `trace`; everything the Rust code prints
with `eprintln!` is appended to an explicit `log`.  The recursion through
stored full-function bodies is unbounded in the source, so the statement
walker takes fuel and returns `none` when the fuel runs out.
-/

/-! ## Generic character-list helpers (models of the Rust std string API) -/

/-- Model of Rust `str::trim_end` (drop trailing whitespace) on a character
list. -/
def trimEndL (l : List Char) : List Char :=
  (l.reverse.dropWhile Char.isWhitespace).reverse

/-- Model of Rust `str::trim` (drop leading and trailing whitespace). -/
def trimBothL (l : List Char) : List Char :=
  trimEndL (l.dropWhile Char.isWhitespace)

/-- Model of Rust `str::replace`: replace every leftmost non-overlapping
occurrence of `pat` by `rep`, scanning left to right.  (The Rust callers
only ever use non-empty patterns; for an empty pattern this model is the
identity.) -/
def replaceL (pat rep : List Char) : List Char → List Char
  | [] => []
  | c :: rest =>
    if pat ≠ [] ∧ pat.isPrefixOf (c :: rest) then
      rep ++ replaceL pat rep (List.drop (pat.length - 1) rest)
    else
      c :: replaceL pat rep rest
termination_by s => s.length
decreasing_by
  all_goals simp only [List.length_cons]
  · have := List.length_drop (pat.length - 1) rest
    omega
  · omega

/-- Model of Rust `str::contains` for a substring pattern. -/
def containsSub : List Char → List Char → Bool
  | [], pat => pat.isEmpty
  | c :: rest, pat => pat.isPrefixOf (c :: rest) || containsSub rest pat

/-- Model of Rust `[String]::join(" ")`. -/
def joinSpace : List String → String
  | [] => ""
  | [a] => a
  | a :: rest => a ++ " " ++ joinSpace rest

/-- Model of Rust `str::trim_matches(c)` (drop every leading and trailing
occurrence of the character `c`). -/
def trimMatchesL (c : Char) (l : List Char) : List Char :=
  ((l.dropWhile (· = c)).reverse.dropWhile (· = c)).reverse

/-- Association-list model of `HashMap::get`: first binding wins, so that
the prepending insert below gives `HashMap`'s overwrite semantics. -/
def alookup {α : Type} : List (String × α) → String → Option α
  | [], _ => none
  | (k2, v) :: rest, k => if k2 = k then some v else alookup rest k

/-! ## AST (`src/src/ast.rs`, with the `args` field and the
`SimpleFunctionDef` variant that `src/src/parser.rs` constructs;
`src/src/ast.rs` itself lags behind the parser, which is part of what
claims C2/C3 are about). -/

inductive Expression where
  | str (s : String)
  | num (n : Int)
  | ident (name : String)

inductive Statement where
  | assignment (name : String) (value : Expression)
  | functionDef (name : String) (body : List Statement)
  | simpleFunctionDef (name : String) (commandTemplate : String)
  | functionCall (name : String) (args : List String)
  | command (command : String)

/-! ## Interpreter state (`src/src/interpreter.rs`, lines 7-20).
The Rust field `variables` is called `vars` here because `variables` is a
reserved word in Lean; `trace` and `log` are the effect model: the list of
shell commands handed to the command executor, and the lines the
interpreter printed to stderr. -/

structure Interpreter where
  vars : List (String × String)
  functions : List (String × List Statement)
  simpleFunctions : List (String × String)
  trace : List String
  log : List String

/-- `Interpreter::new` (interpreter.rs, lines 14-20). -/
def Interpreter.new : Interpreter := ⟨[], [], [], [], []⟩

/-- `Interpreter::evaluate_expression` (interpreter.rs, lines 154-162):
undefined identifiers evaluate to the empty string. -/
def evaluateExpression (st : Interpreter) : Expression → Except String String
  | .str s => Except.ok s
  | .num n => Except.ok (toString n)
  | .ident name => Except.ok ((alookup st.vars name).getD "")

/-- `Interpreter::execute_command` (interpreter.rs, lines 164-185): run the
command through the shell oracle, recording it in the trace; a non-zero
exit status is only logged (`eprintln!`) and the function returns `Ok`.
(The `.output()?` spawn failure is the out-of-scope IO error of the spec
and is not modelled.) -/
def executeCommand (shell : String → Int) (st : Interpreter) (cmd : String) :
    Except String Interpreter :=
  let status := shell cmd
  let st1 := { st with trace := st.trace ++ [cmd] }
  if status ≠ 0 then
    Except.ok { st1 with log := st1.log ++ ["Command failed with status: " ++ toString status] }
  else
    Except.ok st1

/-- `Interpreter::substitute_args` (interpreter.rs, lines 105-120), inner
`for (i, arg) in args.iter().enumerate()` loop: the pass with 1-based index
`i` rewrites every occurrence of `"$i"` to the corresponding argument, and
the passes run in increasing index order. -/
def posPasses : List String → Nat → List Char → List Char
  | [], _, s => s
  | a :: rest, i, s => posPasses rest (i + 1) (replaceL ('$' :: (toString i).toList) a.toList s)

/-- `Interpreter::substitute_args` (interpreter.rs, lines 105-120):
sequential whole-string replacement of `$1`, `$2`, ... in increasing order,
then one replacement pass for `$@` with the space-joined argument list.
There is no replacement of named variables here. -/
def substituteArgs (template : String) (args : List String) : String :=
  let result := posPasses args 1 template.toList
  if containsSub result ['$', '@'] then
    String.mk (replaceL ['$', '@'] (joinSpace args).toList result)
  else
    String.mk result

mutual

/-- `Interpreter::execute_statement` (interpreter.rs, lines 122-152).  The
`FunctionCall` branch (lines 134-146) matches on the name only: it runs a
simple function's template verbatim (no argument substitution), runs a full
function's body, and otherwise prints `Error: Function '<name>' not
defined` to stderr and returns `Ok(())`. -/
def executeStatement (shell : String → Int) : Nat → Interpreter → Statement →
    Option (Except String Interpreter)
  | 0, _, _ => none
  | fuel + 1, st, stmt =>
    match stmt with
    | .assignment name value =>
      match evaluateExpression st value with
      | .ok v => some (.ok { st with vars := (name, v) :: st.vars })
      | .error e => some (.error e)
    | .functionDef name body =>
      some (.ok { st with functions := (name, body) :: st.functions })
    | .simpleFunctionDef name t =>
      some (.ok { st with simpleFunctions := (name, t) :: st.simpleFunctions })
    | .functionCall name _ =>
      match alookup st.simpleFunctions name with
      | some t => some (executeCommand shell st t)
      | none =>
        match alookup st.functions name with
        | some body => executeStatements shell fuel st body
        | none =>
          some (.ok { st with log := st.log ++ ["Error: Function \x27" ++ name ++ "\x27 not defined"] })
    | .command cmd => some (executeCommand shell st cmd)
termination_by fuel _ _ => (fuel, 0)

/-- The statement loops of `Interpreter::execute` (interpreter.rs, lines
22-27) and of full-function bodies: statements run in order and the first
`Err` aborts the rest (the `?` operator). -/
def executeStatements (shell : String → Int) : Nat → Interpreter → List Statement →
    Option (Except String Interpreter)
  | _, st, [] => some (.ok st)
  | fuel, st, s :: ss =>
    match executeStatement shell fuel st s with
    | none => none
    | some (.error e) => some (.error e)
    | some (.ok st2) => executeStatements shell fuel st2 ss
termination_by fuel _ ss => (fuel, ss.length + 1)

end

/-- `Interpreter::execute` (interpreter.rs, lines 22-27). -/
def execute (shell : String → Int) (fuel : Nat) (st : Interpreter)
    (statements : List Statement) : Option (Except String Interpreter) :=
  executeStatements shell fuel st statements

/-- Model of Rust `str::replace("_", ":")` for a single-character pattern,
as used by `call_function_without_parens` (interpreter.rs, line 51). -/
def underscoreToColon (s : String) : String :=
  String.mk (s.toList.map (fun c => if c = '_' then ':' else c))

/-- `Interpreter::call_function_without_parens` (interpreter.rs, lines
29-68).  The source is a sequence of early-return `if` blocks; each
`match` scrutinee below is the corresponding guard, so falling through a
`none` case is exactly the source's fall-through to the next strategy. -/
def callFunctionWithoutParens (shell : String → Int) (fuel : Nat) (st : Interpreter)
    (name : String) (args : List String) : Option (Except String Interpreter) :=
  match alookup st.simpleFunctions name with
  | some t => some (executeCommand shell st (substituteArgs t args))
  | none =>
    match (match args with
           | a :: _ => alookup st.simpleFunctions (name ++ ":" ++ a)
           | [] => none) with
    | some t => some (executeCommand shell st (substituteArgs t args.tail))
    | none =>
      match (if underscoreToColon name ≠ name
             then alookup st.simpleFunctions (underscoreToColon name)
             else none) with
      | some t => some (executeCommand shell st (substituteArgs t args))
      | none =>
        match alookup st.functions name with
        | some body => executeStatements shell fuel st body
        | none => some (.error ("Function \x27" ++ name ++ "\x27 not found"))

/-! ## Parser (`src/src/parser.rs`).  The pest grammar file `grammar.pest`
is not part of `src/`, so the token streams the grammar delivers to
`parse_command` and to the `function_call` branch of `parse_statement` are
modelled from the spec (each modelling definition says so in its doc
comment); the functions consuming them are translated from the source. -/

/-- Model of Rust `str::lines()`: split on `'\n'` (a final line terminator
produces no trailing empty line), stripping one trailing `'\r'` per line.
`splitNL` is the raw split with all (possibly empty) segments. -/
def splitNL : List Char → List (List Char)
  | [] => [[]]
  | c :: rest =>
    if c = '\n' then [] :: splitNL rest
    else
      match splitNL rest with
      | s :: ss => (c :: s) :: ss
      | [] => [[c]]

/-- Strip a single trailing carriage return, as `str::lines()` does. -/
def stripCR (l : List Char) : List Char :=
  if l.getLast? = some '\r' then l.dropLast else l

/-- Model of Rust `str::lines()` on a character list. -/
def rustLinesL (s : List Char) : List (List Char) :=
  let segs := splitNL s
  (if segs.getLast? = some [] then segs.dropLast else segs).map stripCR

/-- The line/buffer loop of `preprocess_escaped_newlines` (parser.rs, lines
12-33), producing the list of logical output lines: a line whose trimmed
end is a backslash has the backslash dropped and a single space appended
into the buffer; any other line is appended to the buffer, which is then
flushed (trimmed at its end) as one output line; a non-empty buffer left at
end of input is flushed as a final line. -/
def processLinesL : List (List Char) → List Char → List (List Char)
  | [], buffer => if buffer.isEmpty then [] else [trimEndL buffer]
  | l :: ls, buffer =>
    let trimmed := trimEndL l
    if trimmed.getLast? = some '\\' then
      processLinesL ls (buffer ++ trimmed.dropLast ++ [' '])
    else
      trimEndL (buffer ++ trimmed) :: processLinesL ls []

/-- Rebuild the output text: each logical line is followed by `'\n'`
(parser.rs, lines 23-24 and 29-30). -/
def joinNL (ls : List (List Char)) : List Char :=
  (ls.map (· ++ ['\n'])).flatten

/-- `preprocess_escaped_newlines` (parser.rs, lines 12-33). -/
def preprocessEscapedNewlines (input : String) : String :=
  String.mk (joinNL (processLinesL (rustLinesL input.toList) []))

/-- Modelled from the spec: one sub-token of a command line as delivered by
the missing `grammar.pest` to `parse_command` — a quoted string (whose
matched text includes its surrounding double quotes), a variable token, an
operator such as a pipe, or a bare word.  `variable` is a reserved word in
Lean, hence `var`. -/
inductive CmdToken where
  | quotedString (s : String)
  | var (s : String)
  | operator (s : String)
  | word (s : String)

/-- One iteration of the `for part in pair.into_inner()` loop of
`parse_command` (parser.rs, lines 136-157), without the trailing space that
line 158 pushes after every token. -/
def renderToken : CmdToken → String
  | .quotedString s => "\x22" ++ String.mk (trimMatchesL '"' s.toList) ++ "\x22"
  | .var s => s
  | .operator s => " " ++ s ++ " "
  | .word s => s

/-- The push loop of `parse_command` (parser.rs, lines 136-159): each
iteration pushes the rendered token and then one space. -/
def parseCommandChars : List CmdToken → List Char
  | [] => []
  | p :: ps => (renderToken p).toList ++ ' ' :: parseCommandChars ps

/-- `parse_command` (parser.rs, lines 133-162): push each rendered token
followed by a space, then trim the whole result. -/
def parseCommand (parts : List CmdToken) : String :=
  String.mk (trimBothL (parseCommandChars parts))

/-- Modelled from the spec: one argument token of a parenthesized call as
delivered by the missing `grammar.pest` to the `function_call` branch of
`parse_statement` — a quoted string (matched text includes the quotes), a
variable token, or a bare argument word. -/
inductive ArgToken where
  | quotedString (s : String)
  | var (s : String)
  | argumentWord (s : String)

/-- The argument-extraction match of the `function_call` branch of
`parse_statement` (parser.rs, lines 104-117): quoted strings lose their
quotes via `trim_matches('"')`, variables and bare words are kept
verbatim. -/
def extractArgument : ArgToken → String
  | .quotedString s => String.mk (trimMatchesL '"' s.toList)
  | .var s => s
  | .argumentWord s => s

/-- Modelled from the spec: well-formedness of a grammar argument token —
a quoted string is a double quote, quote-free content, and a closing double
quote; variable and bare-word tokens contain no double quote. -/
def ArgToken.WF : ArgToken → Prop
  | .quotedString s => ∃ inner : String, s = "\x22" ++ inner ++ "\x22" ∧ '"' ∉ inner.toList
  | .var s => '"' ∉ s.toList
  | .argumentWord s => '"' ∉ s.toList

/-! ## Spec-side definitions (formalising the spec's words, for the
refinement-style claims; each is compared against the source-translated
definitions above). -/

/-- What a resolution strategy of spec §4.4 selects: a simple-function
template together with the arguments to substitute into it, or a full
function body to execute. -/
inductive ResolveAction where
  | runTemplate (template : String) (args : List String)
  | runBody (body : List Statement)

/-- Spec §4.4, resolution without parentheses, strategy 1: direct lookup of
the name in the simple-function table, substituting the full argument
list. -/
def strategyDirect (st : Interpreter) (name : String) (args : List String) :
    Option ResolveAction :=
  (alookup st.simpleFunctions name).map (fun t => .runTemplate t args)

/-- Spec §4.4, strategy 2 (subcommand promotion): with at least one
argument, look up `name:args[0]` and substitute only the remaining
arguments. -/
def strategySubcommand (st : Interpreter) (name : String) (args : List String) :
    Option ResolveAction :=
  match args with
  | [] => none
  | a :: rest => (alookup st.simpleFunctions (name ++ ":" ++ a)).map (fun t => .runTemplate t rest)

/-- Spec §4.4, strategy 3 (underscore-to-colon normalization), applied only
when the replacement differs from the original name, substituting the full
original argument list. -/
def strategyUnderscore (st : Interpreter) (name : String) (args : List String) :
    Option ResolveAction :=
  if underscoreToColon name ≠ name then
    (alookup st.simpleFunctions (underscoreToColon name)).map (fun t => .runTemplate t args)
  else none

/-- Spec §4.4, strategy 4: the full-function-body table. -/
def strategyFullBody (st : Interpreter) (name : String) (_args : List String) :
    Option ResolveAction :=
  (alookup st.functions name).map .runBody

/-- Spec §4.4: the ordered strategy list for resolution without
parentheses; the first strategy that matches wins. -/
def resolveWithoutParensSpec (st : Interpreter) (name : String) (args : List String) :
    Option ResolveAction :=
  (strategyDirect st name args).orElse fun _ =>
    (strategySubcommand st name args).orElse fun _ =>
      (strategyUnderscore st name args).orElse fun _ =>
        strategyFullBody st name args

/-- The digit characters of the positional placeholders `$1`–`$9`. -/
def natDigit (n : Nat) : Char :=
  if n = 1 then '1'
  else if n = 2 then '2'
  else if n = 3 then '3'
  else if n = 4 then '4'
  else if n = 5 then '5'
  else if n = 6 then '6'
  else if n = 7 then '7'
  else if n = 8 then '8'
  else if n = 9 then '9'
  else '0'

/-- The positional index denoted by a single digit character `'1'`–`'9'`,
if any. -/
def digitIndex (c : Char) : Option Nat :=
  if c = '1' then some 1
  else if c = '2' then some 2
  else if c = '3' then some 3
  else if c = '4' then some 4
  else if c = '5' then some 5
  else if c = '6' then some 6
  else if c = '7' then some 7
  else if c = '8' then some 8
  else if c = '9' then some 9
  else none

/-- Spec §4.5 read as one simultaneous left-to-right pass: `$d` with a
single digit `d ≤ n` becomes `args[d-1]`, `$@` becomes the space-joined
argument list, and everything else (including `$d` with `d > n`) is kept. -/
def simSubst (args : List String) : List Char → List Char
  | [] => []
  | c :: rest =>
    if c = '$' then
      match rest with
      | [] => ['$']
      | c2 :: rest2 =>
        if c2 = '@' then (joinSpace args).toList ++ simSubst args rest2
        else
          match digitIndex c2 with
          | some k =>
            if k ≤ args.length then (args.getD (k - 1) "").toList ++ simSubst args rest2
            else '$' :: c2 :: simSubst args rest2
          | none => '$' :: simSubst args (c2 :: rest2)
    else c :: simSubst args rest
termination_by s => s.length

/-- Claim C5 as stated, as a recursive function on the physical lines:
"any line whose trimmed end is a backslash is joined to the following line
with a single space, repeated until no trailing backslash remains", with a
trailing continuation flushed.  Note that the joined content is
re-examined, which is where this reading and the implementation differ. -/
def specPreStrict : List (List Char) → List (List Char)
  | [] => []
  | [l] =>
    let t := trimEndL l
    if t.getLast? = some '\\' then [trimEndL (t.dropLast ++ [' '])] else [t]
  | l1 :: l2 :: ls =>
    let t := trimEndL l1
    if t.getLast? = some '\\' then specPreStrict ((t.dropLast ++ [' '] ++ l2) :: ls)
    else t :: specPreStrict (l2 :: ls)
termination_by ls => ls.length

/-- The amended C5 reading: the continuation decision is made on each
physical source line (never on joined content); a continued line
contributes its trimmed content minus the backslash plus a single space to
the front of whatever the following lines produce.  Structured as a right
fold, in contrast to the source's left-to-right buffer. -/
def specPreA : List (List Char) → List (List Char)
  | [] => []
  | l :: ls =>
    let t := trimEndL l
    if t.getLast? = some '\\' then
      match specPreA ls with
      | [] => [trimEndL (t.dropLast ++ [' '])]
      | r :: rs => trimEndL (t.dropLast ++ [' '] ++ r) :: rs
    else t :: specPreA ls

/-- Claim C6 as stated: tokens rendered with quoted strings keeping their
quotes, variables and bare words as-is, and operators bare (the "single
spaces" around operators coming only from the single-space join). -/
def claimRenderToken : CmdToken → String
  | .quotedString s => s
  | .var s => s
  | .operator s => s
  | .word s => s

/-- Claim C6 as stated: the command text is the claim-rendered tokens
joined by single spaces. -/
def specParseCommand (parts : List CmdToken) : String :=
  joinSpace (parts.map claimRenderToken)

/-! ## C1: resolution without parentheses tries exactly the spec's ordered
strategy list. -/

/-- C1: for every function name and argument list,
`call_function_without_parens` returns, in order: the direct simple-table
match substituting all arguments; else the `name:args[0]` promotion
substituting `args[1:]`; else the underscore-to-colon normalization (only
when it changes the name) substituting all arguments; else the
full-function body executed statement by statement; else the error
`Function '<name>' not found`.  Stated as: the source function agrees with
the spec's first-match-wins strategy list `resolveWithoutParensSpec`. -/
theorem claim_C1_resolution_order (shell : String → Int) (fuel : Nat) (st : Interpreter)
    (name : String) (args : List String) :
    callFunctionWithoutParens shell fuel st name args =
      match resolveWithoutParensSpec st name args with
      | some (.runTemplate t as) => some (executeCommand shell st (substituteArgs t as))
      | some (.runBody body) => executeStatements shell fuel st body
      | none => some (.error ("Function \x27" ++ name ++ "\x27 not found")) := by
  unfold callFunctionWithoutParens resolveWithoutParensSpec strategyDirect strategySubcommand
    strategyUnderscore strategyFullBody
  cases h1 : alookup st.simpleFunctions name with
  | some t => simp [h1, Option.orElse]
  | none =>
    simp only [h1, Option.map_none, Option.none_orElse]
    cases args with
    | nil =>
      by_cases hu : underscoreToColon name ≠ name
      · simp only [if_pos hu]
        cases h3 : alookup st.simpleFunctions (underscoreToColon name) with
        | some t => simp [h3, Option.orElse]
        | none =>
          cases h4 : alookup st.functions name with
          | some body => simp [h3, h4, Option.orElse]
          | none => simp [h3, h4, Option.orElse]
      · simp only [if_neg hu, Option.none_orElse]
        cases h4 : alookup st.functions name with
        | some body => simp [h4, Option.orElse]
        | none => simp [h4, Option.orElse]
    | cons a rest =>
      cases h2 : alookup st.simpleFunctions (name ++ ":" ++ a) with
      | some t => simp [h2, Option.orElse]
      | none =>
        simp only [h2, Option.map_none, Option.none_orElse]
        by_cases hu : underscoreToColon name ≠ name
        · simp only [if_pos hu]
          cases h3 : alookup st.simpleFunctions (underscoreToColon name) with
          | some t => simp [h3, Option.orElse]
          | none =>
            cases h4 : alookup st.functions name with
            | some body => simp [h3, h4, Option.orElse]
            | none => simp [h3, h4, Option.orElse]
        · simp only [if_neg hu, Option.none_orElse]
          cases h4 : alookup st.functions name with
          | some body => simp [h4, Option.orElse]
          | none => simp [h4, Option.orElse]

/-! ## Views for closed evaluations, and `toString` evaluation lemmas. -/

/-- The executed-command trace of a successful run. -/
def traceView : Option (Except String Interpreter) → Option (List String)
  | some (.ok st) => some st.trace
  | _ => none

/-- The variable table of a successful run. -/
def varsView : Option (Except String Interpreter) → Option (List (String × String))
  | some (.ok st) => some st.vars
  | _ => none

/-- The stderr log of a successful run. -/
def logView : Option (Except String Interpreter) → Option (List String)
  | some (.ok st) => some st.log
  | _ => none

theorem toStringData1 : (toString (1 : Nat)).data = ['1'] := rfl

theorem toStringData2 : (toString (2 : Nat)).data = ['2'] := rfl

theorem toStringData3 : (toString (3 : Nat)).data = ['3'] := rfl

theorem toStringData4 : (toString (4 : Nat)).data = ['4'] := rfl

theorem toStringData5 : (toString (5 : Nat)).data = ['5'] := rfl

theorem toStringData6 : (toString (6 : Nat)).data = ['6'] := rfl

theorem toStringData7 : (toString (7 : Nat)).data = ['7'] := rfl

theorem toStringData8 : (toString (8 : Nat)).data = ['8'] := rfl

theorem toStringData9 : (toString (9 : Nat)).data = ['9'] := rfl

theorem toStringData10 : (toString (10 : Nat)).data = ['1', '0'] := rfl

/-! ## C2: variable substitution into command text.  The spec says a bare
`Command` statement gets `$<variable-name>` placeholders replaced from the
variable table before the text reaches the command executor, and that
`substitute_args` performs that variable replacement; the code in
`src/src/interpreter.rs` does neither (the `Command` branch passes the text
through verbatim, and `substitute_args` only handles `$k` and `$@`), while
the repository's own integration tests
(`test_variable_assignment_and_usage`, `test_variable_in_function_template`
in `src/tests/integration_test.rs`) expect the substituted output. -/

/-- C2: evaluating the failing input from the repository's own test — the
script `name=World` followed by `echo "Hello, $name!"` — the interpreter
stores the variable but hands the command text to the executor verbatim,
with `$name` intact; `substitute_args` likewise leaves `$name` untouched.
This contradicts the claim (and the test, which expects
`echo "Hello, World!"` behaviour), witnessing the code bug. -/
theorem claim_C2_code_eval :
    traceView (execute (fun _ => 0) 2 Interpreter.new
        [Statement.assignment "name" (Expression.str "World"),
         Statement.command "echo \x22Hello, $name!\x22"])
      = some ["echo \x22Hello, $name!\x22"]
    ∧ varsView (execute (fun _ => 0) 2 Interpreter.new
        [Statement.assignment "name" (Expression.str "World"),
         Statement.command "echo \x22Hello, $name!\x22"])
      = some [("name", "World")]
    ∧ substituteArgs "echo \x22Hello, $name!\x22" [] = "echo \x22Hello, $name!\x22"
    ∧ ("echo \x22Hello, $name!\x22" : String) ≠ "echo \x22Hello, World!\x22" := by
  refine ⟨?_, ?_, ?_, ?_⟩
  · simp [execute, executeStatements, executeStatement, evaluateExpression, executeCommand,
      traceView, Interpreter.new]
  · simp [execute, executeStatements, executeStatement, evaluateExpression, executeCommand,
      varsView, Interpreter.new, alookup]
  · simp +decide [substituteArgs, posPasses, containsSub]
  · decide

/-! ## C3: executing a parsed `FunctionCall` statement.  The spec says the
literal argument list is passed through the resolution algorithm, and a
resolution failure is a `FunctionNotFound` error of the `execute` call.
The `FunctionCall` branch of `execute_statement`
(src/src/interpreter.rs:134-145) matches only the name (the `Statement` in
src/src/ast.rs has no `args` field, although `src/src/parser.rs` builds
one), runs a simple function's template verbatim without substituting the
arguments, and on a missing name prints to stderr and returns `Ok(())`.
The repository's own tests (`test_function_call_with_quoted_arguments`,
`test_function_call_with_bare_word_arguments`) expect the substituted
behaviour, so the code is the slip. -/

/-- C3: evaluating the failing input from the repository's own test — a
script defining `greet() echo "Hello, $1 and $2!"` and calling
`greet("Alice", "Bob")` — the interpreter executes the raw template (the
parsed arguments are ignored; proper substitution would have produced
`echo "Hello, Alice and Bob!"`), and calling the undefined function `nope`
returns success with only a stderr line, not a `FunctionNotFound` error. -/
theorem claim_C3_code_eval :
    traceView (executeStatement (fun _ => 0) 2
        { Interpreter.new with simpleFunctions := [("greet", "echo \x22Hello, $1 and $2!\x22")] }
        (Statement.functionCall "greet" ["Alice", "Bob"]))
      = some ["echo \x22Hello, $1 and $2!\x22"]
    ∧ substituteArgs "echo \x22Hello, $1 and $2!\x22" ["Alice", "Bob"]
      = "echo \x22Hello, Alice and Bob!\x22"
    ∧ logView (executeStatement (fun _ => 0) 2 Interpreter.new
        (Statement.functionCall "nope" []))
      = some ["Error: Function \x27nope\x27 not defined"]
    ∧ traceView (executeStatement (fun _ => 0) 2 Interpreter.new
        (Statement.functionCall "nope" []))
      = some [] := by
  refine ⟨?_, ?_, ?_, ?_⟩
  · simp [executeStatement, executeCommand, alookup, traceView, Interpreter.new]
  · simp +decide [substituteArgs, posPasses, replaceL, containsSub, joinSpace,
      toStringData1, toStringData2]
  · simp [executeStatement, alookup, logView, Interpreter.new]
  · simp [executeStatement, alookup, traceView, Interpreter.new]

/-! ## C7: a non-zero exit status is logged, not escalated. -/

/-- Everything of the interpreter state except the stderr log: the three
tables and the executed-command trace. -/
def Interpreter.view (st : Interpreter) :
    List (String × String) × List (String × List Statement) × List (String × String)
      × List String :=
  (st.vars, st.functions, st.simpleFunctions, st.trace)

/-- The log-free view of a statement-execution result. -/
def execView (r : Option (Except String Interpreter)) :
    Option (Except String (List (String × String) × List (String × List Statement)
      × List (String × String) × List String)) :=
  r.map (Except.map Interpreter.view)

theorem exceptMap_ok {α β : Type} (f : α → β) (a : α) :
    Except.map f (Except.ok a : Except String α) = Except.ok (f a) := rfl

theorem exceptMap_error {α β : Type} (f : α → β) (e : String) :
    Except.map f (Except.error e : Except String α) = Except.error e := rfl

/-- The state `execute_command` leaves behind: the command is appended to
the trace, and the failure message is appended to the log exactly when the
exit status is non-zero. -/
def afterCommand (shell : String → Int) (st : Interpreter) (cmd : String) : Interpreter :=
  { st with
    trace := st.trace ++ [cmd]
    log := if shell cmd ≠ 0 then
        st.log ++ ["Command failed with status: " ++ toString (shell cmd)]
      else st.log }

theorem executeCommand_eq (shell : String → Int) (st : Interpreter) (cmd : String) :
    executeCommand shell st cmd = Except.ok (afterCommand shell st cmd) := by
  unfold executeCommand afterCommand
  by_cases h : shell cmd = 0 <;> simp [h]

theorem evaluateExpression_congr (st1 st2 : Interpreter) (h : st1.vars = st2.vars)
    (e : Expression) : evaluateExpression st1 e = evaluateExpression st2 e := by
  cases e <;> simp [evaluateExpression, h]

/-- Runs from log-view-equal states under two different shell oracles agree
on everything except the log: the oracle's exit statuses influence nothing
but the stderr log. -/
theorem execView_shell_indep (sh1 sh2 : String → Int) (fuel : Nat) :
    (∀ st1 st2 : Interpreter, st1.view = st2.view → ∀ stmt,
        execView (executeStatement sh1 fuel st1 stmt)
          = execView (executeStatement sh2 fuel st2 stmt))
    ∧ (∀ st1 st2 : Interpreter, st1.view = st2.view → ∀ ss,
        execView (executeStatements sh1 fuel st1 ss)
          = execView (executeStatements sh2 fuel st2 ss)) := by
  induction fuel with
  | zero =>
    constructor
    · intro st1 st2 _ stmt
      simp [executeStatement, execView]
    · intro st1 st2 h ss
      cases ss with
      | nil => simp [executeStatements, execView, exceptMap_ok, h]
      | cons s ss => simp [executeStatements, executeStatement, execView]
  | succ n ih =>
    have hstmt : ∀ st1 st2 : Interpreter, st1.view = st2.view → ∀ stmt,
        execView (executeStatement sh1 (n + 1) st1 stmt)
          = execView (executeStatement sh2 (n + 1) st2 stmt) := by
      intro st1 st2 h stmt
      have hc := h
      simp only [Interpreter.view, Prod.mk.injEq] at hc
      obtain ⟨hv, hf, hsf, htr⟩ := hc
      cases stmt with
      | assignment name value =>
        rw [executeStatement, executeStatement, evaluateExpression_congr st1 st2 hv value]
        cases evaluateExpression st2 value with
        | ok v => simp [execView, exceptMap_ok, Interpreter.view, hv, htr, hf, hsf]
        | error e => simp [execView]
      | functionDef name body =>
        simp [executeStatement, execView, exceptMap_ok, Interpreter.view, hv, htr, hf, hsf]
      | simpleFunctionDef name t =>
        simp [executeStatement, execView, exceptMap_ok, Interpreter.view, hv, htr, hf, hsf]
      | functionCall name args =>
        rw [executeStatement, executeStatement, hsf, hf]
        cases alookup st2.simpleFunctions name with
        | some t =>
          simp [executeCommand_eq, execView, exceptMap_ok, afterCommand, Interpreter.view, hv, htr,
            hf, hsf]
        | none =>
          cases alookup st2.functions name with
          | some body => exact ih.2 st1 st2 h body
          | none => simp [execView, exceptMap_ok, Interpreter.view, hv, htr, hf, hsf]
      | command cmd =>
        rw [executeStatement, executeStatement]
        simp [executeCommand_eq, execView, exceptMap_ok, afterCommand, Interpreter.view, hv, htr,
          hf, hsf]
    refine ⟨hstmt, ?_⟩
    intro st1 st2 h ss
    induction ss generalizing st1 st2 with
    | nil => simp [executeStatements, execView, exceptMap_ok, h]
    | cons s ss ihss =>
      rw [executeStatements, executeStatements]
      have hs := hstmt st1 st2 h s
      cases e1 : executeStatement sh1 (n + 1) st1 s with
      | none =>
        cases e2 : executeStatement sh2 (n + 1) st2 s with
        | none => rfl
        | some r2 => rw [e1, e2] at hs; simp [execView] at hs
      | some r1 =>
        cases e2 : executeStatement sh2 (n + 1) st2 s with
        | none => rw [e1, e2] at hs; simp [execView] at hs
        | some r2 =>
          rw [e1, e2] at hs
          cases r1 with
          | error e =>
            cases r2 with
            | error e2 => simp [execView, exceptMap_error, exceptMap_ok] at hs; simp [hs]
            | ok st2' => simp [execView, exceptMap_error, exceptMap_ok] at hs
          | ok st1' =>
            cases r2 with
            | error e2 => simp [execView, exceptMap_error, exceptMap_ok] at hs
            | ok st2' =>
              simp only [execView, Option.map, exceptMap_ok, Option.some.injEq,
                Except.ok.injEq] at hs
              exact ihss st1' st2' hs

/-- C7: a non-zero exit status from the delegated shell command does not
fail the statement: `execute_command` returns `Ok` with the failure only
logged; a `Command` statement's execution continues with the remaining
statements from the post-command state; a `FunctionCall` statement
resolving to a simple function likewise returns `Ok`; and the entire
result of an `execute` call — up to the stderr log — is unaffected by the
exit statuses the shell oracle returns. -/
theorem claim_C7_nonzero_exit_not_fatal (sh1 sh2 : String → Int) (fuel : Nat)
    (st : Interpreter) (cmd : String) (rest prog : List Statement) (name : String)
    (args : List String) (t : String) :
    executeCommand sh1 st cmd = Except.ok (afterCommand sh1 st cmd)
    ∧ executeStatements sh1 (fuel + 1) st (Statement.command cmd :: rest)
        = executeStatements sh1 (fuel + 1) (afterCommand sh1 st cmd) rest
    ∧ (alookup st.simpleFunctions name = some t →
        executeStatement sh1 (fuel + 1) st (Statement.functionCall name args)
          = some (Except.ok (afterCommand sh1 st t)))
    ∧ execView (executeStatements sh1 fuel st prog)
        = execView (executeStatements sh2 fuel st prog) := by
  refine ⟨executeCommand_eq sh1 st cmd, ?_, ?_, ?_⟩
  · rw [executeStatements, executeStatement, executeCommand_eq]
  · intro hlook
    simp [executeStatement, hlook, executeCommand_eq]
  · exact (execView_shell_indep sh1 sh2 fuel).2 st st rfl prog

/-- C7 witness: with a shell oracle that always exits 1, running the
defined simple function `hi` (template `false`) succeeds, leaving the
post-command state. -/
theorem claim_C7_witness :
    executeStatement (fun _ => 1) 1 { Interpreter.new with simpleFunctions := [("hi", "false")] }
        (Statement.functionCall "hi" [])
      = some (Except.ok (afterCommand (fun _ => 1)
          { Interpreter.new with simpleFunctions := [("hi", "false")] } "false")) :=
  (claim_C7_nonzero_exit_not_fatal (fun _ => 1) (fun _ => 0) 0
    { Interpreter.new with simpleFunctions := [("hi", "false")] }
    "c" [] [] "hi" [] "false").2.2.1 (by rfl)

/-! ## C8: parenthesized-call arguments reach the interpreter with their
surrounding quotes stripped. -/

theorem dropWhileEq_of_not_mem {c : Char} {l : List Char} (h : c ∉ l) :
    l.dropWhile (· = c) = l := by
  cases l with
  | nil => rfl
  | cons x xs =>
    rw [List.dropWhile_cons]
    have hx : ¬ (x = c) := by
      intro hxc
      exact h (by simp [hxc])
    simp [hx]

theorem trimMatchesL_quote {inner : List Char} (h : '"' ∉ inner) :
    trimMatchesL '"' ('"' :: (inner ++ ['"'])) = inner := by
  unfold trimMatchesL
  have h1 : List.dropWhile (· = '"') ('"' :: (inner ++ ['"']))
      = List.dropWhile (· = '"') (inner ++ ['"']) := by
    rw [List.dropWhile_cons]
    simp
  rw [h1]
  cases inner with
  | nil => rfl
  | cons x xs =>
    have hx : ¬ (x = '"') := by
      intro hxc
      exact h (by simp [hxc])
    have h2 : List.dropWhile (· = '"') ((x :: xs) ++ ['"']) = (x :: xs) ++ ['"'] := by
      rw [List.cons_append, List.dropWhile_cons]
      simp [hx]
    rw [h2]
    have h3 : ((x :: xs) ++ ['"']).reverse = '"' :: (x :: xs).reverse := by
      simp
    have hrev : '"' ∉ (x :: xs).reverse := fun hm => h (List.mem_reverse.mp hm)
    have h4 : List.dropWhile (· = '"') ((x :: xs).reverse) = (x :: xs).reverse :=
      dropWhileEq_of_not_mem hrev
    rw [h3, List.dropWhile_cons, if_pos (by decide), h4, List.reverse_reverse]

/-- C8: every well-formed argument token the parser delivers to the
interpreter arrives quote-free: a quoted string loses exactly its
surrounding double quotes, while variable and bare-word tokens are kept
verbatim; no extracted argument string contains (in particular, retains)
a double-quote character. -/
theorem claim_C8_quotes_stripped (a : ArgToken) (h : a.WF) :
    '"' ∉ (extractArgument a).toList
    ∧ (∀ s, a = ArgToken.var s → extractArgument a = s)
    ∧ (∀ s, a = ArgToken.argumentWord s → extractArgument a = s)
    ∧ (∀ inner : String, '"' ∉ inner.toList →
        a = ArgToken.quotedString ("\x22" ++ inner ++ "\x22") → extractArgument a = inner) := by
  cases a with
  | quotedString s =>
    obtain ⟨inner, hs, hq⟩ := h
    subst hs
    have hlist : ("\x22" ++ inner ++ "\x22").toList = '"' :: (inner.toList ++ ['"']) := by
      show ("\x22" ++ inner ++ "\x22").data = '"' :: (inner.data ++ ['"'])
      simp [String.data_append]
    refine ⟨?_, ?_, ?_, ?_⟩
    · show '"' ∉ (String.mk (trimMatchesL '"' ("\x22" ++ inner ++ "\x22").toList)).toList
      rw [hlist, trimMatchesL_quote hq]
      exact hq
    · intro s' hcontra; cases hcontra
    · intro s' hcontra; cases hcontra
    · intro inner' hq' heq
      have hmk : ("\x22" ++ inner ++ "\x22" : String) = "\x22" ++ inner' ++ "\x22" := by
        injection heq
      rw [show extractArgument (ArgToken.quotedString ("\x22" ++ inner ++ "\x22"))
            = String.mk (trimMatchesL '"' ("\x22" ++ inner ++ "\x22").toList) from rfl, hmk]
      have hlist' : ("\x22" ++ inner' ++ "\x22").toList = '"' :: (inner'.toList ++ ['"']) := by
        show ("\x22" ++ inner' ++ "\x22").data = '"' :: (inner'.data ++ ['"'])
        simp [String.data_append]
      rw [hlist', trimMatchesL_quote hq']
      cases inner'
      rfl
  | var s =>
    refine ⟨h, ?_, ?_, ?_⟩
    · intro s' heq; cases heq; rfl
    · intro s' hcontra; cases hcontra
    · intro inner' _ hcontra; cases hcontra
  | argumentWord s =>
    refine ⟨h, ?_, ?_, ?_⟩
    · intro s' hcontra; cases hcontra
    · intro s' heq; cases heq; rfl
    · intro inner' _ hcontra; cases hcontra

/-- C8 witness: the quoted token `"hello world"` is well formed, extracts
to `hello world`, and the extracted argument is quote-free. -/
theorem claim_C8_witness :
    ArgToken.WF (ArgToken.quotedString ("\x22" ++ "hello world" ++ "\x22"))
    ∧ '"' ∉ (extractArgument (ArgToken.quotedString ("\x22" ++ "hello world" ++ "\x22"))).toList
    ∧ extractArgument (ArgToken.quotedString ("\x22" ++ "hello world" ++ "\x22"))
      = "hello world" := by
  have hwf : ArgToken.WF (ArgToken.quotedString ("\x22" ++ "hello world" ++ "\x22")) :=
    ⟨"hello world", rfl, by decide⟩
  refine ⟨hwf, (claim_C8_quotes_stripped _ hwf).1,
    (claim_C8_quotes_stripped _ hwf).2.2.2 "hello world" (by decide) rfl⟩

/-! ## C6: reconstruction of command text from grammar sub-tokens. -/

/-- A non-empty character list that neither starts nor ends with
whitespace (what grammar word/variable/operator tokens look like). -/
def firm (l : List Char) : Prop :=
  l ≠ [] ∧ (∀ c, l.head? = some c → c.isWhitespace = false)
    ∧ (∀ c, l.getLast? = some c → c.isWhitespace = false)

/-- Modelled from the spec: well-formedness of a command sub-token — a
quoted string is a double quote, quote-free content, and a closing double
quote; variable, operator and bare-word tokens are non-empty with no
whitespace at either edge. -/
def CmdToken.WF : CmdToken → Prop
  | .quotedString s => ∃ inner : String, s = "\x22" ++ inner ++ "\x22" ∧ '"' ∉ inner.toList
  | .var s => firm s.toList
  | .operator s => firm s.toList
  | .word s => firm s.toList

/-- Whether a command sub-token is an operator token. -/
def isOperatorTok : CmdToken → Bool
  | .operator _ => true
  | _ => false

theorem head?_append_of_ne_nil {α : Type} {l : List α} (l2 : List α) (h : l ≠ []) :
    (l ++ l2).head? = l.head? := by
  cases l with
  | nil => exact absurd rfl h
  | cons c cs => rfl

theorem getLast?_append_of_ne_nil {α : Type} (l : List α) {l2 : List α} (h : l2 ≠ []) :
    (l ++ l2).getLast? = l2.getLast? := by
  rw [← List.head?_reverse, ← List.head?_reverse (l := l2), List.reverse_append]
  exact head?_append_of_ne_nil l.reverse (by simpa using h)

theorem firm_append_sep {A B : List Char} (hA : firm A) (hB : firm B) :
    firm (A ++ ' ' :: B) := by
  obtain ⟨hAne, hAh, hAl⟩ := hA
  obtain ⟨hBne, hBh, hBl⟩ := hB
  refine ⟨by simp, ?_, ?_⟩
  · intro c hc
    rw [head?_append_of_ne_nil _ hAne] at hc
    exact hAh c hc
  · intro c hc
    rw [getLast?_append_of_ne_nil A (by simp)] at hc
    cases B with
    | nil => exact absurd rfl hBne
    | cons b bs =>
      rw [List.getLast?_cons_cons] at hc
      exact hBl c hc

theorem dropWhileWS_of_firm {X : List Char} (h : firm X) (tail : List Char) :
    (X ++ tail).dropWhile Char.isWhitespace = X ++ tail := by
  obtain ⟨hne, hh, _⟩ := h
  cases X with
  | nil => exact absurd rfl hne
  | cons c cs =>
    rw [List.cons_append, List.dropWhile_cons, hh c rfl]
    simp

theorem trimEndL_of_firm {X : List Char} (h : firm X) : trimEndL X = X := by
  obtain ⟨hne, _, hl⟩ := h
  unfold trimEndL
  have hrev : X.reverse.dropWhile Char.isWhitespace = X.reverse := by
    cases hx : X.reverse with
    | nil => rfl
    | cons d ds =>
      have hd : X.getLast? = some d := by
        rw [← List.head?_reverse, hx]
        rfl
      rw [List.dropWhile_cons, hl d hd]
      simp
  rw [hrev, List.reverse_reverse]

theorem trimBothL_pad {X : List Char} (h : firm X) : trimBothL (X ++ [' ']) = X := by
  unfold trimBothL
  rw [dropWhileWS_of_firm h]
  show trimEndL (X ++ [' ']) = X
  unfold trimEndL
  have hr : (X ++ [' ']).reverse = ' ' :: X.reverse := by simp
  rw [hr, List.dropWhile_cons, if_pos (by decide : ' '.isWhitespace = true)]
  exact trimEndL_of_firm h

theorem renderToken_eq_claim {p : CmdToken} (hwf : p.WF) (hop : isOperatorTok p = false) :
    renderToken p = claimRenderToken p := by
  cases p with
  | quotedString s =>
    obtain ⟨inner, hs, hq⟩ := hwf
    subst hs
    show "\x22" ++ String.mk (trimMatchesL '"' ("\x22" ++ inner ++ "\x22").toList) ++ "\x22"
      = "\x22" ++ inner ++ "\x22"
    have hlist : ("\x22" ++ inner ++ "\x22").toList = '"' :: (inner.toList ++ ['"']) := by
      show ("\x22" ++ inner ++ "\x22").data = '"' :: (inner.data ++ ['"'])
      simp [String.data_append]
    rw [hlist, trimMatchesL_quote hq]
    cases inner
    rfl
  | var s => rfl
  | operator s => exact absurd hop (by simp [isOperatorTok])
  | word s => rfl

theorem firm_claimRender {p : CmdToken} (hwf : p.WF) : firm (claimRenderToken p).toList := by
  cases p with
  | quotedString s =>
    obtain ⟨inner, hs, _⟩ := hwf
    subst hs
    have hlist : ("\x22" ++ inner ++ "\x22").toList = '"' :: (inner.toList ++ ['"']) := by
      show ("\x22" ++ inner ++ "\x22").data = '"' :: (inner.data ++ ['"'])
      simp [String.data_append]
    show firm ("\x22" ++ inner ++ "\x22").toList
    rw [hlist]
    refine ⟨by simp, ?_, ?_⟩
    · intro c hc
      cases hc
      decide
    · intro c hc
      have hsplit : ('"' :: (inner.toList ++ ['"'])) = ('"' :: inner.toList) ++ ['"'] := by
        simp
      rw [hsplit, getLast?_append_of_ne_nil _ (by simp)] at hc
      cases hc
      decide
  | var s => exact hwf
  | operator s => exact hwf
  | word s => exact hwf

theorem firm_glue {A B : List Char} (mid : List Char) (hA : firm A) (hB : firm B) :
    firm (A ++ (mid ++ B)) := by
  obtain ⟨hAne, hAh, _⟩ := hA
  obtain ⟨hBne, _, hBl⟩ := hB
  refine ⟨by simp [hAne], ?_, ?_⟩
  · intro c hc
    rw [head?_append_of_ne_nil _ hAne] at hc
    exact hAh c hc
  · intro c hc
    rw [getLast?_append_of_ne_nil A (by simp [hBne]),
      getLast?_append_of_ne_nil mid hBne] at hc
    exact hBl c hc

theorem toList_append (a b : String) : (a ++ b).toList = a.toList ++ b.toList := rfl

theorem parseCommandChars_eq_join {parts : List CmdToken} (hne : parts ≠ [])
    (hwf : ∀ p ∈ parts, p.WF) (hop : ∀ p ∈ parts, isOperatorTok p = false) :
    parseCommandChars parts = (joinSpace (parts.map claimRenderToken)).toList ++ [' '] := by
  induction parts with
  | nil => exact absurd rfl hne
  | cons p ps ih =>
    cases ps with
    | nil =>
      show (renderToken p).toList ++ ' ' :: parseCommandChars []
        = (joinSpace [claimRenderToken p]).toList ++ [' ']
      rw [renderToken_eq_claim (hwf p (by simp)) (hop p (by simp))]
      rfl
    | cons q qs =>
      show (renderToken p).toList ++ ' ' :: parseCommandChars (q :: qs)
        = (joinSpace (claimRenderToken p :: claimRenderToken q :: qs.map claimRenderToken)).toList
          ++ [' ']
      rw [renderToken_eq_claim (hwf p (by simp)) (hop p (by simp)),
        ih (by simp) (fun r hr => hwf r (by simp [hr])) (fun r hr => hop r (by simp [hr]))]
      show (claimRenderToken p).toList
          ++ ' ' :: ((joinSpace (claimRenderToken q :: qs.map claimRenderToken)).toList ++ [' '])
        = (claimRenderToken p ++ " "
            ++ joinSpace (claimRenderToken q :: qs.map claimRenderToken)).toList ++ [' ']
      simp [toList_append]

theorem firm_joinSpace {parts : List CmdToken} (hne : parts ≠ [])
    (hwf : ∀ p ∈ parts, p.WF) :
    firm (joinSpace (parts.map claimRenderToken)).toList := by
  induction parts with
  | nil => exact absurd rfl hne
  | cons p ps ih =>
    cases ps with
    | nil => exact firm_claimRender (hwf p (by simp))
    | cons q qs =>
      have hrest := ih (by simp) (fun r hr => hwf r (by simp [hr]))
      have hp := firm_claimRender (hwf p (by simp))
      have hshape : (joinSpace ((p :: q :: qs).map claimRenderToken)).toList
          = (claimRenderToken p).toList
            ++ ' ' :: (joinSpace ((q :: qs).map claimRenderToken)).toList := by
        show (claimRenderToken p ++ " "
            ++ joinSpace (claimRenderToken q :: qs.map claimRenderToken)).toList = _
        simp [toList_append]
      rw [hshape]
      exact firm_append_sep hp hrest

/-- C6 counterexample: on the token stream of `echo | wc`, the source
`parse_command` produces two spaces on each side of the pipe
(`echo  |  wc`), not the single-space join `echo | wc` the claim
describes. -/
theorem claim_C6_counterexample :
    parseCommand [CmdToken.word "echo", CmdToken.operator "|", CmdToken.word "wc"]
      = "echo  |  wc"
    ∧ specParseCommand [CmdToken.word "echo", CmdToken.operator "|", CmdToken.word "wc"]
      = "echo | wc"
    ∧ ("echo  |  wc" : String) ≠ "echo | wc" :=
  ⟨by decide, by decide, by decide⟩

/-- C6 amended: the reconstruction is as the claim states — quoted strings
keep their surrounding quotes, variables and bare words are emitted as-is,
tokens joined by single spaces, result trimmed — for token streams without
operator tokens; an operator token is emitted with one extra space on each
side in addition to the single-space join, so an operator ends up with two
spaces towards each neighbour. -/
theorem claim_C6_amended_operator_spacing :
    (∀ parts : List CmdToken, (∀ p ∈ parts, p.WF) →
        (∀ p ∈ parts, isOperatorTok p = false) →
        parseCommand parts = specParseCommand parts)
    ∧ (∀ a op b : String, firm a.toList → firm op.toList → firm b.toList →
        parseCommand [CmdToken.word a, CmdToken.operator op, CmdToken.word b]
          = a ++ "  " ++ op ++ "  " ++ b) := by
  constructor
  · intro parts hwf hop
    cases parts with
    | nil => rfl
    | cons p ps =>
      unfold parseCommand specParseCommand
      rw [parseCommandChars_eq_join (by simp) hwf hop,
        trimBothL_pad (firm_joinSpace (by simp) hwf)]
      rfl
  · intro a op b ha hopf hb
    unfold parseCommand
    have hchars : parseCommandChars [CmdToken.word a, CmdToken.operator op, CmdToken.word b]
        = (a.toList ++ ([' ', ' '] ++ (op.toList ++ ([' ', ' '] ++ b.toList)))) ++ [' '] := by
      show a.toList ++ ' ' :: ((" " ++ op ++ " ").toList ++ ' ' :: (b.toList ++ ' ' :: []))
        = (a.toList ++ ([' ', ' '] ++ (op.toList ++ ([' ', ' '] ++ b.toList)))) ++ [' ']
      simp [toList_append]
    rw [hchars, trimBothL_pad (firm_glue _ ha (firm_glue _ hopf hb))]
    have hdata : (a ++ "  " ++ op ++ "  " ++ b).toList
        = a.toList ++ ([' ', ' '] ++ (op.toList ++ ([' ', ' '] ++ b.toList))) := by
      simp [toList_append, (show ("  " : String).toList = [' ', ' '] from rfl)]
    calc String.mk (a.toList ++ ([' ', ' '] ++ (op.toList ++ ([' ', ' '] ++ b.toList))))
        = String.mk ((a ++ "  " ++ op ++ "  " ++ b).toList) := by rw [hdata]
      _ = a ++ "  " ++ op ++ "  " ++ b := rfl

/-- C6 witness: a command of bare word, quoted string and variable tokens
reconstructs exactly as the claim describes, and an operator instance shows
the double spacing. -/
theorem claim_C6_witness :
    parseCommand [CmdToken.word "docker", CmdToken.quotedString ("\x22" ++ "a b" ++ "\x22"),
        CmdToken.var "$x"]
      = specParseCommand [CmdToken.word "docker",
          CmdToken.quotedString ("\x22" ++ "a b" ++ "\x22"), CmdToken.var "$x"]
    ∧ parseCommand [CmdToken.word "x", CmdToken.operator "|", CmdToken.word "y"]
      = "x" ++ "  " ++ "|" ++ "  " ++ "y" := by
  have hword : firm ("docker" : String).toList :=
    ⟨by decide, by intro c hc; cases hc; decide, by intro c hc; cases hc; decide⟩
  have hvar : firm ("$x" : String).toList :=
    ⟨by decide, by intro c hc; cases hc; decide, by intro c hc; cases hc; decide⟩
  have hx : firm ("x" : String).toList :=
    ⟨by decide, by intro c hc; cases hc; decide, by intro c hc; cases hc; decide⟩
  have hpipe : firm ("|" : String).toList :=
    ⟨by decide, by intro c hc; cases hc; decide, by intro c hc; cases hc; decide⟩
  have hy : firm ("y" : String).toList :=
    ⟨by decide, by intro c hc; cases hc; decide, by intro c hc; cases hc; decide⟩
  constructor
  · apply claim_C6_amended_operator_spacing.1
    · intro p hp
      simp only [List.mem_cons, List.not_mem_nil, or_false] at hp
      rcases hp with rfl | rfl | rfl
      · exact hword
      · exact ⟨"a b", rfl, by decide⟩
      · exact hvar
    · intro p hp
      simp only [List.mem_cons, List.not_mem_nil, or_false] at hp
      rcases hp with rfl | rfl | rfl
      · rfl
      · rfl
      · rfl
  · exact claim_C6_amended_operator_spacing.2 "x" "|" "y" hx hpipe hy

/-! ## Toolkit for the sequential-replacement analysis (C4 and C9). -/

theorem replaceL_nil (pat rep : List Char) : replaceL pat rep [] = [] := by
  simp [replaceL]

theorem replaceL_cons_ne_head {p rep : List Char} {c : Char} (hc : c ≠ '$') (s : List Char) :
    replaceL ('$' :: p) rep (c :: s) = c :: replaceL ('$' :: p) rep s := by
  rw [replaceL, if_neg]
  rintro ⟨-, hpre⟩
  simp only [List.isPrefixOf, Bool.and_eq_true, beq_iff_eq] at hpre
  exact hc hpre.1.symm

theorem replaceL_two_char_ne_second {d : Char} {rep : List Char} {c : Char} (hc : c ≠ d)
    (s : List Char) :
    replaceL ['$', d] rep ('$' :: c :: s) = '$' :: replaceL ['$', d] rep (c :: s) := by
  rw [replaceL, if_neg]
  rintro ⟨-, hpre⟩
  simp only [List.isPrefixOf, Bool.and_eq_true, beq_iff_eq] at hpre
  exact hc hpre.2.1.symm

theorem replaceL_match {d : Char} (rep : List Char) (s : List Char) :
    replaceL ['$', d] rep ('$' :: d :: s) = rep ++ replaceL ['$', d] rep s := by
  rw [replaceL, if_pos]
  · simp
  · refine ⟨by simp, ?_⟩
    simp [List.isPrefixOf]

theorem replaceL_one_char {p rep : List Char} (hp : p ≠ []) :
    replaceL ('$' :: p) rep ['$'] = ['$'] := by
  rw [replaceL, if_neg]
  · rw [replaceL_nil]
  · rintro ⟨-, hpre⟩
    simp only [List.isPrefixOf, Bool.and_eq_true, beq_iff_eq] at hpre
    cases p with
    | nil => exact hp rfl
    | cons q qs => simp [List.isPrefixOf] at hpre

theorem replaceL_id_of_not_mem {p rep : List Char} {s : List Char} (h : '$' ∉ s) :
    replaceL ('$' :: p) rep s = s := by
  induction s with
  | nil => exact replaceL_nil _ _
  | cons c cs ih =>
    have hc : c ≠ '$' := by
      intro hcc
      exact h (by simp [hcc])
    rw [replaceL_cons_ne_head hc, ih (fun hm => h (by simp [hm]))]

theorem replaceL_append_left {p rep : List Char} {x : List Char} (y : List Char)
    (h : '$' ∉ x) :
    replaceL ('$' :: p) rep (x ++ y) = x ++ replaceL ('$' :: p) rep y := by
  induction x with
  | nil => rfl
  | cons c cs ih =>
    have hc : c ≠ '$' := by
      intro hcc
      exact h (by simp [hcc])
    rw [List.cons_append, replaceL_cons_ne_head hc, ih (fun hm => h (by simp [hm]))]
    rfl

theorem replaceL_id_of_not_contains {pat rep s : List Char}
    (h : containsSub s pat = false) :
    replaceL pat rep s = s := by
  induction s with
  | nil => exact replaceL_nil _ _
  | cons c cs ih =>
    simp only [containsSub, Bool.or_eq_false_iff] at h
    rw [replaceL, if_neg, ih h.2]
    rintro ⟨-, hpre⟩
    rw [hpre] at h
    exact absurd h.1 (by simp)

theorem containsSub_false_of_not_mem {p s : List Char} (h : '$' ∉ s) :
    containsSub s ('$' :: p) = false := by
  induction s with
  | nil => rfl
  | cons c cs ih =>
    have hc : c ≠ '$' := by
      intro hcc
      exact h (by simp [hcc])
    have hbeq : ('$' == c) = false := beq_eq_false_iff_ne.mpr (Ne.symm hc)
    simp only [containsSub, Bool.or_eq_false_iff]
    exact ⟨by simp [List.isPrefixOf, hbeq], ih (fun hm => h (by simp [hm]))⟩

theorem containsSub_tail {pat : List Char} {c : Char} {s : List Char}
    (h : containsSub (c :: s) pat = false) : containsSub s pat = false := by
  simp only [containsSub, Bool.or_eq_false_iff] at h
  exact h.2

theorem dd_second_ne {b : Char} {s : List Char}
    (h : containsSub ('$' :: b :: s) ['$', '$'] = false) : b ≠ '$' := by
  intro hb
  subst hb
  simp [containsSub, List.isPrefixOf] at h

theorem posPasses_str_nil (i : Nat) (s : List Char) : posPasses [] i s = s := rfl

theorem posPasses_nil (args : List String) (i : Nat) : posPasses args i [] = [] := by
  induction args generalizing i with
  | nil => rfl
  | cons a rest ih => rw [posPasses, replaceL_nil, ih]

theorem posPasses_id_of_not_mem {args : List String} {i : Nat} {s : List Char}
    (h : '$' ∉ s) : posPasses args i s = s := by
  induction args generalizing i with
  | nil => rfl
  | cons a rest ih =>
    rw [posPasses, replaceL_id_of_not_mem h]
    exact ih

theorem posPasses_append_left {args : List String} {i : Nat} (x y : List Char)
    (h : '$' ∉ x) :
    posPasses args i (x ++ y) = x ++ posPasses args i y := by
  induction args generalizing i y with
  | nil => rfl
  | cons a rest ih => rw [posPasses, replaceL_append_left y h, ih, posPasses]

theorem posPasses_cons_ne_head {args : List String} {i : Nat} {c : Char} (s : List Char)
    (hc : c ≠ '$') :
    posPasses args i (c :: s) = c :: posPasses args i s := by
  have h : '$' ∉ [c] := by
    simp only [List.mem_singleton]
    exact fun hcc => hc hcc.symm
  simpa using @posPasses_append_left args i [c] s h

theorem toString_digit {i : Nat} (h1 : 1 ≤ i) (h2 : i ≤ 9) :
    (toString i).toList = [natDigit i] := by
  interval_cases i <;> rfl

theorem toString_ne_nil {i : Nat} (h1 : 1 ≤ i) (h2 : i ≤ 10) : (toString i).toList ≠ [] := by
  interval_cases i <;> decide

theorem natDigit_ne_dollar (i : Nat) : natDigit i ≠ '$' := by
  unfold natDigit
  split_ifs <;> decide

theorem natDigit_ne_at (i : Nat) : natDigit i ≠ '@' := by
  unfold natDigit
  split_ifs <;> decide

theorem natDigit_ne_nl (i : Nat) : natDigit i ≠ '\n' := by
  unfold natDigit
  split_ifs <;> decide

theorem natDigit_inj {j k : Nat} (h1 : 1 ≤ j) (h2 : j ≤ 9) (h3 : 1 ≤ k) (h4 : k ≤ 9)
    (hne : j ≠ k) : natDigit j ≠ natDigit k := by
  interval_cases j <;> interval_cases k <;> first | exact absurd rfl hne | decide

theorem digitIndex_eq {c : Char} {k : Nat} (h : digitIndex c = some k) :
    c = natDigit k ∧ 1 ≤ k ∧ k ≤ 9 := by
  unfold digitIndex at h
  split_ifs at h with g1 g2 g3 g4 g5 g6 g7 g8 g9
  · cases h; exact ⟨by rw [g1]; decide, by omega, by omega⟩
  · cases h; exact ⟨by rw [g2]; decide, by omega, by omega⟩
  · cases h; exact ⟨by rw [g3]; decide, by omega, by omega⟩
  · cases h; exact ⟨by rw [g4]; decide, by omega, by omega⟩
  · cases h; exact ⟨by rw [g5]; decide, by omega, by omega⟩
  · cases h; exact ⟨by rw [g6]; decide, by omega, by omega⟩
  · cases h; exact ⟨by rw [g7]; decide, by omega, by omega⟩
  · cases h; exact ⟨by rw [g8]; decide, by omega, by omega⟩
  · cases h; exact ⟨by rw [g9]; decide, by omega, by omega⟩

theorem digitIndex_none {c : Char} {j : Nat} (h : digitIndex c = none) (h1 : 1 ≤ j)
    (h2 : j ≤ 9) : c ≠ natDigit j := by
  intro hc
  subst hc
  interval_cases j <;> exact absurd h (by decide)

theorem posPasses_skip {c : Char} (hc : c ≠ '$') :
    ∀ (args : List String) (i : Nat) (s : List Char), 1 ≤ i → i + args.length ≤ 10 →
      (∀ k, i ≤ k → k < i + args.length → c ≠ natDigit k) →
      posPasses args i ('$' :: c :: s) = '$' :: c :: posPasses args i s := by
  intro args
  induction args with
  | nil => intro i s _ _ _; rfl
  | cons a rest ih =>
    intro i s h1 h2 hdig
    rw [posPasses, toString_digit h1 (by simp only [List.length_cons] at h2; omega),
      replaceL_two_char_ne_second
        (hdig i le_rfl (by simp only [List.length_cons]; omega)) s,
      replaceL_cons_ne_head hc]
    rw [ih (i + 1) (replaceL ['$', natDigit i] a.toList s) (by omega)
      (by simp only [List.length_cons] at h2 ⊢; omega)
      (fun k hk1 hk2 =>
        hdig k (by omega) (by simp only [List.length_cons] at hk2 ⊢; omega))]
    conv_rhs =>
      rw [posPasses, toString_digit h1 (by simp only [List.length_cons] at h2; omega)]

theorem posPasses_hit {k : Nat} :
    ∀ (args : List String) (i : Nat) (s : List Char), 1 ≤ i → i + args.length ≤ 10 →
      i ≤ k → k < i + args.length → (∀ a ∈ args, '$' ∉ a.toList) →
      posPasses args i ('$' :: natDigit k :: s)
        = (args.getD (k - i) "").toList ++ posPasses args i s := by
  intro args
  induction args with
  | nil => intro i s _ _ hk1 hk2 _; simp only [List.length_nil] at hk2; omega
  | cons a rest ih =>
    intro i s h1 h2 hk1 hk2 hfree
    rcases Nat.eq_or_lt_of_le hk1 with heq | hlt
    · subst heq
      rw [posPasses, toString_digit h1 (by simp only [List.length_cons] at h2; omega),
        replaceL_match _ s, posPasses_append_left _ _ (hfree a (by simp))]
      rw [Nat.sub_self]
      conv_rhs =>
        rw [posPasses, toString_digit h1 (by simp only [List.length_cons] at h2; omega)]
      rfl
    · have hk9 : k ≤ 9 := by simp only [List.length_cons] at h2 hk2; omega
      have hi9 : i ≤ 9 := by simp only [List.length_cons] at h2; omega
      rw [posPasses, toString_digit h1 hi9,
        replaceL_two_char_ne_second
          (natDigit_inj (by simp only [List.length_cons] at h2 hk2; omega) hk9 h1 hi9
            (by omega)) s,
        replaceL_cons_ne_head (natDigit_ne_dollar k)]
      rw [ih (i + 1) (replaceL ['$', natDigit i] a.toList s) (by omega)
        (by simp only [List.length_cons] at h2 ⊢; omega) hlt
        (by simp only [List.length_cons] at hk2 ⊢; omega)
        (fun r hr => hfree r (by simp [hr]))]
      have hgetD : (a :: rest).getD (k - i) "" = rest.getD (k - (i + 1)) "" := by
        have hki : k - i = (k - (i + 1)) + 1 := by omega
        rw [hki]
        rfl
      rw [hgetD]
      conv_rhs => rw [posPasses, toString_digit h1 hi9]

/-! ## C9: the sequential whole-string textual replacement semantics. -/

/-- C9: substitution is successive whole-string replacement in increasing
index order: an argument value that contains the text of a later
placeholder is itself rewritten by the later pass (`$1` with arguments
`["$2", b]` yields `b`), and with ten arguments `$10` is never replaced as
a unit — its `$1` prefix is rewritten to the first argument, leaving the
trailing `0` (`$10` yields `args[0] ++ "0"`). -/
theorem claim_C9_sequential_replacement
    (b a0 a1 a2 a3 a4 a5 a6 a7 a8 a9 : String)
    (hb : '$' ∉ b.toList) (h0 : '$' ∉ a0.toList) :
    substituteArgs "$1" ["$2", b] = b
    ∧ substituteArgs "$10" [a0, a1, a2, a3, a4, a5, a6, a7, a8, a9] = a0 ++ "0" := by
  constructor
  · show (if containsSub (posPasses ["$2", b] 1 "$1".toList) ['$', '@'] then
        String.mk (replaceL ['$', '@'] (joinSpace ["$2", b]).toList
          (posPasses ["$2", b] 1 "$1".toList))
      else String.mk (posPasses ["$2", b] 1 "$1".toList)) = b
    have hd1 : natDigit 1 = '1' := by decide
    have hd2 : natDigit 2 = '2' := by decide
    have hps : posPasses ["$2", b] 1 "$1".toList = b.toList := by
      rw [posPasses, toString_digit (by omega) (by omega), hd1]
      have h1 : replaceL ['$', '1'] "$2".toList "$1".toList = ['$', '2'] := by
        have := replaceL_match (d := '1') "$2".toList []
        rw [replaceL_nil] at this
        exact this.trans (by rfl)
      rw [h1, posPasses, toString_digit (by omega) (by omega), hd2]
      have h2 : replaceL ['$', '2'] b.toList ['$', '2'] = b.toList := by
        have := replaceL_match (d := '2') b.toList []
        rw [replaceL_nil] at this
        exact this.trans (by simp)
      rw [h2]
      rfl
    rw [hps, containsSub_false_of_not_mem hb]
    show String.mk b.toList = b
    rfl
  · show (if containsSub
        (posPasses [a0, a1, a2, a3, a4, a5, a6, a7, a8, a9] 1 "$10".toList) ['$', '@'] then
        String.mk (replaceL ['$', '@']
          (joinSpace [a0, a1, a2, a3, a4, a5, a6, a7, a8, a9]).toList
          (posPasses [a0, a1, a2, a3, a4, a5, a6, a7, a8, a9] 1 "$10".toList))
      else String.mk (posPasses [a0, a1, a2, a3, a4, a5, a6, a7, a8, a9] 1 "$10".toList))
      = a0 ++ "0"
    have hfree : '$' ∉ a0.toList ++ ['0'] := by
      simp only [List.mem_append, List.mem_singleton]
      rintro (hm | hm)
      · exact h0 hm
      · cases hm
    have hd1 : natDigit 1 = '1' := by decide
    have hps : posPasses [a0, a1, a2, a3, a4, a5, a6, a7, a8, a9] 1 "$10".toList
        = a0.toList ++ ['0'] := by
      rw [posPasses, toString_digit (by omega) (by omega), hd1]
      have h1 : replaceL ['$', '1'] a0.toList "$10".toList = a0.toList ++ ['0'] := by
        have hm := replaceL_match (d := '1') a0.toList ['0']
        have h0' : replaceL ['$', '1'] a0.toList ['0'] = ['0'] := by
          rw [replaceL_cons_ne_head (by decide) [], replaceL_nil]
        rw [h0'] at hm
        exact hm
      rw [h1]
      exact posPasses_id_of_not_mem hfree
    rw [hps, containsSub_false_of_not_mem hfree]
    show String.mk (a0.toList ++ ['0']) = a0 ++ "0"
    rfl

/-- C9 witness: the cascade and the `$10` prefix rewrite at concrete
dollar-free arguments. -/
theorem claim_C9_witness :
    substituteArgs "$1" ["$2", "beta"] = "beta"
    ∧ substituteArgs "$10" ["a", "b", "c", "d", "e", "f", "g", "h", "i", "j"]
      = "a" ++ "0" :=
  ⟨(claim_C9_sequential_replacement "beta" "a" "b" "c" "d" "e" "f" "g" "h" "i" "j"
      (by decide) (by decide)).1,
   (claim_C9_sequential_replacement "beta" "a" "b" "c" "d" "e" "f" "g" "h" "i" "j"
      (by decide) (by decide)).2⟩

/-! ## C4: comparing sequential substitution with the spec's per-placeholder
description. -/

theorem getD_mem {args : List String} {n : Nat} (h : n < args.length) :
    args.getD n "" ∈ args := by
  induction args generalizing n with
  | nil => simp at h
  | cons a rest ih =>
    cases n with
    | zero => simp [List.getD]
    | succ m =>
      have : (a :: rest).getD (m + 1) "" = rest.getD m "" := rfl
      rw [this]
      exact List.mem_cons_of_mem a (ih (by simp only [List.length_cons] at h; omega))

theorem joinSpace_free {args : List String} (hfree : ∀ a ∈ args, '$' ∉ a.toList) :
    '$' ∉ (joinSpace args).toList := by
  induction args with
  | nil => simp [joinSpace]
  | cons a rest ih =>
    cases rest with
    | nil => simpa [joinSpace] using hfree a (by simp)
    | cons b bs =>
      show '$' ∉ (a ++ " " ++ joinSpace (b :: bs)).toList
      rw [toList_append, toList_append]
      intro hm
      rcases List.mem_append.mp hm with hm2 | hm2
      · rcases List.mem_append.mp hm2 with hm3 | hm3
        · exact hfree a (by simp) hm3
        · simp at hm3
      · exact ih (fun r hr => hfree r (by simp [hr])) hm2

theorem posPasses_one_char {args : List String} {i : Nat} (h1 : 1 ≤ i)
    (h2 : i + args.length ≤ 10) :
    posPasses args i ['$'] = ['$'] := by
  induction args generalizing i with
  | nil => rfl
  | cons a rest ih =>
    rw [posPasses,
      replaceL_one_char (toString_ne_nil h1 (by simp only [List.length_cons] at h2; omega))]
    exact ih (by omega) (by simp only [List.length_cons] at h2 ⊢; omega)

theorem simSubst_nil (args : List String) : simSubst args [] = [] := by
  simp [simSubst]

theorem simSubst_cons_ne {args : List String} {a : Char} (tail : List Char) (ha : a ≠ '$') :
    simSubst args (a :: tail) = a :: simSubst args tail := by
  rw [simSubst.eq_def]
  simp [ha]

theorem simSubst_dollar_nil (args : List String) : simSubst args ['$'] = ['$'] := by
  rw [simSubst.eq_def]
  simp

theorem simSubst_at (args : List String) (rest : List Char) :
    simSubst args ('$' :: '@' :: rest)
      = (joinSpace args).toList ++ simSubst args rest := by
  rw [simSubst.eq_def]
  simp

theorem simSubst_digit_le {args : List String} {b : Char} {k : Nat} (rest : List Char)
    (hdi : digitIndex b = some k) (hk : k ≤ args.length) (hb : b ≠ '@') :
    simSubst args ('$' :: b :: rest)
      = (args.getD (k - 1) "").toList ++ simSubst args rest := by
  rw [simSubst.eq_def]
  simp [hb, hdi, hk]

theorem simSubst_digit_gt {args : List String} {b : Char} {k : Nat} (rest : List Char)
    (hdi : digitIndex b = some k) (hk : ¬ k ≤ args.length) (hb : b ≠ '@') :
    simSubst args ('$' :: b :: rest) = '$' :: b :: simSubst args rest := by
  rw [simSubst.eq_def]
  simp [hb, hdi, hk]

theorem simSubst_no_digit {args : List String} {b : Char} (rest : List Char)
    (hdi : digitIndex b = none) (hb : b ≠ '@') :
    simSubst args ('$' :: b :: rest) = '$' :: simSubst args (b :: rest) := by
  rw [simSubst.eq_def]
  simp [hb, hdi]

theorem substituteArgs_eq_replace (t : String) (args : List String) :
    substituteArgs t args
      = String.mk (replaceL ['$', '@'] (joinSpace args).toList (posPasses args 1 t.toList)) := by
  show (if containsSub (posPasses args 1 t.toList) ['$', '@'] then
      String.mk (replaceL ['$', '@'] (joinSpace args).toList (posPasses args 1 t.toList))
    else String.mk (posPasses args 1 t.toList)) = _
  by_cases h : containsSub (posPasses args 1 t.toList) ['$', '@'] = true
  · rw [if_pos h]
  · have hfalse : containsSub (posPasses args 1 t.toList) ['$', '@'] = false := by
      cases hb : containsSub (posPasses args 1 t.toList) ['$', '@']
      · rfl
      · exact absurd hb h
    rw [if_neg h, replaceL_id_of_not_contains hfalse]

theorem seqEqSim {args : List String} (hlen : args.length ≤ 9)
    (hfree : ∀ a ∈ args, '$' ∉ a.toList) :
    ∀ (n : Nat) (s : List Char), s.length ≤ n → containsSub s ['$', '$'] = false →
      replaceL ['$', '@'] (joinSpace args).toList (posPasses args 1 s)
        = simSubst args s := by
  intro n
  induction n with
  | zero =>
    intro s hs _
    have hnil : s = [] := List.eq_nil_of_length_eq_zero (Nat.le_zero.mp hs)
    subst hnil
    rw [posPasses_nil, replaceL_nil, simSubst_nil]
  | succ n ih =>
    intro s hs hdd
    cases s with
    | nil => rw [posPasses_nil, replaceL_nil, simSubst_nil]
    | cons a tail =>
      by_cases ha : a = '$'
      · subst ha
        cases tail with
        | nil =>
          rw [posPasses_one_char (by omega) (by omega),
            replaceL_one_char (p := ['@']) (by simp), simSubst_dollar_nil]
        | cons b rest =>
          have hb : b ≠ '$' := dd_second_ne hdd
          have hrest_len : rest.length ≤ n := by
            simp only [List.length_cons] at hs
            omega
          have hrest_dd : containsSub rest ['$', '$'] = false :=
            containsSub_tail (containsSub_tail hdd)
          by_cases hb2 : b = '@'
          · subst hb2
            rw [posPasses_skip (by decide) args 1 rest (by omega) (by omega)
                (fun k _ _ => Ne.symm (natDigit_ne_at k)),
              replaceL_match _ (posPasses args 1 rest),
              ih rest hrest_len hrest_dd, simSubst_at]
          · cases hdi : digitIndex b with
            | some k =>
              obtain ⟨hbe, hk1, hk9⟩ := digitIndex_eq hdi
              subst hbe
              by_cases hkle : k ≤ args.length
              · rw [posPasses_hit args 1 rest (by omega) (by omega) hk1 (by omega) hfree,
                  replaceL_append_left _ (hfree _ (getD_mem (by omega))),
                  ih rest hrest_len hrest_dd]
                rw [simSubst_digit_le rest hdi hkle hb2]
              · rw [posPasses_skip (natDigit_ne_dollar k) args 1 rest (by omega) (by omega)
                    (fun j hj1 hj2 =>
                      natDigit_inj hk1 hk9 (by omega) (by omega) (by omega)),
                  replaceL_two_char_ne_second hb2 _,
                  replaceL_cons_ne_head (natDigit_ne_dollar k),
                  ih rest hrest_len hrest_dd, simSubst_digit_gt rest hdi hkle hb2]
            | none =>
              rw [posPasses_skip hb args 1 rest (by omega) (by omega)
                  (fun j hj1 hj2 =>
                    digitIndex_none hdi hj1 (by omega)),
                replaceL_two_char_ne_second hb2 _, replaceL_cons_ne_head hb,
                ih rest hrest_len hrest_dd, simSubst_no_digit rest hdi hb2,
                simSubst_cons_ne rest hb]
      · rw [posPasses_cons_ne_head tail ha, replaceL_cons_ne_head ha,
          ih tail (by simp only [List.length_cons] at hs; omega) (containsSub_tail hdd),
          simSubst_cons_ne tail ha]

/-- C4 counterexample: with one argument, the placeholder `$12` (k = 12 > 1)
is not left unchanged as the claim states — the textual pass for `$1`
rewrites its prefix, producing `a2`. -/
theorem claim_C4_counterexample :
    substituteArgs "$12" ["a"] = "a2" ∧ ("a2" : String) ≠ "$12" := by
  constructor
  · simp +decide [substituteArgs, posPasses, replaceL, containsSub, joinSpace, toStringData1]
  · decide

/-- C4 amended: the per-placeholder description holds under the side
conditions the sequential textual replacement needs — at most nine
arguments (placeholders are a dollar and one digit), no argument value
containing a dollar sign, and no two adjacent dollar signs in the template.
Then substitution equals the single simultaneous pass `simSubst`: each `$d`
with `d ≤ n` becomes `args[d-1]`, `$d` with `d > n` is left unchanged, and
`$@` becomes the space-joined argument list.  Unconditionally, a template
without `$@` is returned unchanged for the empty argument list. -/
theorem claim_C4_amended_simultaneous :
    (∀ (t : String) (args : List String), args.length ≤ 9 →
        (∀ a ∈ args, '$' ∉ a.toList) →
        containsSub t.toList ['$', '$'] = false →
        substituteArgs t args = String.mk (simSubst args t.toList))
    ∧ (∀ t : String, containsSub t.toList ['$', '@'] = false →
        substituteArgs t [] = t) := by
  constructor
  · intro t args hlen hfree hdd
    rw [substituteArgs_eq_replace]
    exact congrArg String.mk (seqEqSim hlen hfree t.toList.length t.toList le_rfl hdd)
  · intro t h
    show (if containsSub (posPasses [] 1 t.toList) ['$', '@'] then
        String.mk (replaceL ['$', '@'] (joinSpace []).toList (posPasses [] 1 t.toList))
      else String.mk (posPasses [] 1 t.toList)) = t
    rw [posPasses_str_nil]
    rw [if_neg (by rw [h]; exact Bool.false_ne_true)]
    rfl

/-- C4 witness: the spec's own examples under the amended conditions —
`echo $1 $2` with `["a", "b"]`, and the placeholder-free round trip. -/
theorem claim_C4_witness :
    substituteArgs "echo $1 $2" ["a", "b"]
      = String.mk (simSubst ["a", "b"] "echo $1 $2".toList)
    ∧ substituteArgs "echo hi" [] = "echo hi" :=
  ⟨claim_C4_amended_simultaneous.1 "echo $1 $2" ["a", "b"] (by decide) (by decide) (by decide),
   claim_C4_amended_simultaneous.2 "echo hi" (by decide)⟩

/-! ## C5 and C10: the line-continuation preprocessor. -/

theorem dropWhile_dropWhile_append {α : Type} (p : α → Bool) (a b : List α) :
    List.dropWhile p (List.dropWhile p a ++ b) = List.dropWhile p (a ++ b) := by
  induction a with
  | nil => rfl
  | cons c cs ih =>
    by_cases hc : p c = true
    · rw [List.dropWhile_cons, if_pos hc, ih, List.cons_append, List.dropWhile_cons, if_pos hc]
    · have h1 : List.dropWhile p (c :: cs) = c :: cs := by
        rw [List.dropWhile_cons, if_neg hc]
      rw [h1]

theorem trimEndL_absorb (x y : List Char) :
    trimEndL (x ++ trimEndL y) = trimEndL (x ++ y) := by
  unfold trimEndL
  rw [List.reverse_append, List.reverse_reverse, dropWhile_dropWhile_append,
    ← List.reverse_append]

theorem trimEndL_idem (l : List Char) : trimEndL (trimEndL l) = trimEndL l := by
  have h := trimEndL_absorb [] l
  simpa using h

theorem specPreA_trimmed (ls : List (List Char)) :
    ∀ r ∈ specPreA ls, trimEndL r = r := by
  induction ls with
  | nil => intro r hr; simp [specPreA] at hr
  | cons l rest ih =>
    intro r hr
    rw [specPreA] at hr
    by_cases hbs : (trimEndL l).getLast? = some '\\'
    · rw [if_pos hbs] at hr
      cases hsp : specPreA rest with
      | nil =>
        rw [hsp] at hr
        simp only [List.mem_singleton] at hr
        subst hr
        exact trimEndL_idem _
      | cons q qs =>
        rw [hsp] at hr
        rcases List.mem_cons.mp hr with hr | hr
        · subst hr
          exact trimEndL_idem _
        · exact ih r (by rw [hsp]; exact List.mem_cons_of_mem q hr)
    · rw [if_neg hbs] at hr
      rcases List.mem_cons.mp hr with hr | hr
      · subst hr
        exact trimEndL_idem _
      · exact ih r hr

theorem processLines_specPreA (ls : List (List Char)) :
    ∀ buf, processLinesL ls buf
      = match specPreA ls with
        | [] => if buf = [] then [] else [trimEndL buf]
        | r :: rs => trimEndL (buf ++ r) :: rs := by
  induction ls with
  | nil =>
    intro buf
    show (if buf.isEmpty then [] else [trimEndL buf]) = _
    cases buf <;> simp [specPreA]
  | cons l rest ih =>
    intro buf
    rw [processLinesL, specPreA]
    by_cases hbs : (trimEndL l).getLast? = some '\\'
    · rw [if_pos hbs, if_pos hbs, ih]
      cases hsp : specPreA rest with
      | nil =>
        rw [if_neg (by simp)]
        show [trimEndL (buf ++ (trimEndL l).dropLast ++ [' '])]
          = [trimEndL (buf ++ trimEndL ((trimEndL l).dropLast ++ [' ']))]
        rw [trimEndL_absorb, ← List.append_assoc]
      | cons q qs =>
        show trimEndL (buf ++ (trimEndL l).dropLast ++ [' '] ++ q) :: qs
          = trimEndL (buf ++ trimEndL ((trimEndL l).dropLast ++ [' '] ++ q)) :: qs
        rw [trimEndL_absorb, ← List.append_assoc, ← List.append_assoc]
    · rw [if_neg hbs, if_neg hbs, ih]
      cases hsp : specPreA rest with
      | nil =>
        show trimEndL (buf ++ trimEndL l) :: (if ([] : List Char) = [] then [] else _)
          = trimEndL (buf ++ trimEndL l) :: []
        rw [if_pos rfl]
      | cons q qs =>
        show trimEndL (buf ++ trimEndL l) :: trimEndL ([] ++ q) :: qs
          = trimEndL (buf ++ trimEndL l) :: q :: qs
        rw [List.nil_append,
          specPreA_trimmed rest q (by rw [hsp]; exact List.mem_cons_self q qs)]

theorem processLines_eq_specPreA (ls : List (List Char)) :
    processLinesL ls [] = specPreA ls := by
  rw [processLines_specPreA]
  cases hsp : specPreA ls with
  | nil => rfl
  | cons r rs =>
    show trimEndL ([] ++ r) :: rs = r :: rs
    rw [List.nil_append, specPreA_trimmed ls r (by rw [hsp]; exact List.mem_cons_self r rs)]

/-- C5 counterexample: on the input `a\\` + blank line + `b` (the first
line ends in an escaped backslash), the implementation emits the line `a\`
— a line whose trimmed end is a backslash, not joined to the following
line — whereas the claim's "joined ... repeated until no trailing
backslash remains" reading (`specPreStrict`) would join through to `a b`. -/
theorem claim_C5_counterexample :
    preprocessEscapedNewlines "a\\\\\n\nb" = "a\\\nb\n"
    ∧ String.mk (joinNL (specPreStrict (rustLinesL "a\\\\\n\nb".toList))) = "a b\n"
    ∧ preprocessEscapedNewlines "a\\\\\n\nb"
      ≠ String.mk (joinNL (specPreStrict (rustLinesL "a\\\\\n\nb".toList))) := by
  have h1 : preprocessEscapedNewlines "a\\\\\n\nb" = "a\\\nb\n" := by decide
  have hl : rustLinesL "a\\\\\n\nb".toList = [['a', '\\', '\\'], [], ['b']] := by decide
  have h2 : String.mk (joinNL (specPreStrict (rustLinesL "a\\\\\n\nb".toList))) = "a b\n" := by
    rw [hl]
    have hs1 : specPreStrict [['a', '\\', '\\'], [], ['b']]
        = specPreStrict [['a', '\\', ' '], ['b']] := by
      conv_lhs => rw [specPreStrict]
      rw [if_pos (by decide)]
      have hx : (trimEndL ['a', '\\', '\\']).dropLast ++ [' '] ++ ([] : List Char)
          = ['a', '\\', ' '] := by decide
      rw [hx]
    have hs2 : specPreStrict [['a', '\\', ' '], ['b']]
        = specPreStrict [['a', ' ', 'b']] := by
      conv_lhs => rw [specPreStrict]
      rw [if_pos (by decide)]
      have hx : (trimEndL ['a', '\\', ' ']).dropLast ++ [' '] ++ ['b']
          = ['a', ' ', 'b'] := by decide
      rw [hx]
    have hs3 : specPreStrict [['a', ' ', 'b']] = [['a', ' ', 'b']] := by
      conv_lhs => rw [specPreStrict]
      rw [if_neg (by decide)]
      decide
    rw [hs1, hs2, hs3]
    decide
  refine ⟨h1, h2, ?_⟩
  rw [h1, h2]
  decide

/-- C5 amended: the preprocessor joins any *physical* line whose trimmed
end is a backslash to the following line with a single space — the
continuation decision is made per source line and joined content is not
re-examined (so an escaped final backslash can leave a backslash-ended
output line); non-continued lines pass through with trailing whitespace
trimmed, one statement per output line; a trailing continuation with no
following line is flushed.  Stated as: the source's buffer loop equals the
right-fold `specPreA` on the physical lines, for every input text. -/
theorem claim_C5_amended_physical_lines (s : String) :
    preprocessEscapedNewlines s = String.mk (joinNL (specPreA (rustLinesL s.toList))) := by
  unfold preprocessEscapedNewlines
  rw [processLines_eq_specPreA]

theorem trimEndL_subset (l : List Char) : trimEndL l ⊆ l := by
  intro c hc
  unfold trimEndL at hc
  rw [List.mem_reverse] at hc
  have h1 := (List.dropWhile_sublist (l := l.reverse) Char.isWhitespace).subset hc
  rwa [List.mem_reverse] at h1

theorem trimEndL_getLast_not_ws {l : List Char} (h : trimEndL l = l) {c : Char}
    (hc : l.getLast? = some c) : c.isWhitespace = false := by
  by_contra hws
  simp only [Bool.not_eq_false] at hws
  have hrev : l.reverse.head? = some c := by
    rw [List.head?_reverse]
    exact hc
  cases hx : l.reverse with
  | nil => rw [hx] at hrev; cases hrev
  | cons d ds =>
    rw [hx] at hrev
    have hd : d = c := by injection hrev
    subst hd
    have htrim : trimEndL l = (List.dropWhile Char.isWhitespace ds).reverse := by
      unfold trimEndL
      rw [hx, List.dropWhile_cons, if_pos hws]
    have hlen1 : (trimEndL l).length ≤ ds.length := by
      rw [htrim, List.length_reverse]
      exact (List.dropWhile_sublist Char.isWhitespace).length_le
    have hlen2 : l.length = ds.length + 1 := by
      rw [← List.length_reverse, hx]
      rfl
    rw [h] at hlen1
    omega

theorem splitNL_ne_nil (s : List Char) : splitNL s ≠ [] := by
  cases s with
  | nil => simp [splitNL]
  | cons c rest =>
    rw [splitNL]
    by_cases hc : c = '\n'
    · simp [hc]
    · rw [if_neg hc]
      cases splitNL rest <;> simp

theorem splitNL_no_nl (s : List Char) : ∀ seg ∈ splitNL s, '\n' ∉ seg := by
  induction s with
  | nil =>
    intro seg hseg
    simp only [splitNL, List.mem_singleton] at hseg
    subst hseg
    simp
  | cons c rest ih =>
    intro seg hseg
    rw [splitNL] at hseg
    by_cases hc : c = '\n'
    · rw [if_pos hc] at hseg
      rcases List.mem_cons.mp hseg with h | h
      · subst h; simp
      · exact ih seg h
    · rw [if_neg hc] at hseg
      cases hsp : splitNL rest with
      | nil => exact absurd hsp (splitNL_ne_nil rest)
      | cons s0 ss =>
        rw [hsp] at hseg
        rcases List.mem_cons.mp hseg with h | h
        · subst h
          intro hm
          rcases List.mem_cons.mp hm with h2 | h2
          · exact hc h2.symm
          · exact ih s0 (by rw [hsp]; exact List.mem_cons_self s0 ss) h2
        · exact ih seg (by rw [hsp]; exact List.mem_cons_of_mem s0 h)

theorem rustLines_no_nl (s : List Char) : ∀ l ∈ rustLinesL s, '\n' ∉ l := by
  intro l hl
  unfold rustLinesL at hl
  simp only [List.mem_map] at hl
  obtain ⟨seg, hseg, rfl⟩ := hl
  have hseg' : seg ∈ splitNL s := by
    split_ifs at hseg with hcond
    · exact (List.dropLast_sublist (splitNL s)).subset hseg
    · exact hseg
  intro hm
  have hm' : '\n' ∈ seg := by
    unfold stripCR at hm
    split_ifs at hm
    · exact (List.dropLast_sublist seg).subset hm
    · exact hm
  exact splitNL_no_nl s seg hseg' hm'

theorem processLines_trimmed (ls : List (List Char)) :
    ∀ buf, ∀ r ∈ processLinesL ls buf, trimEndL r = r := by
  induction ls with
  | nil =>
    intro buf r hr
    rw [processLinesL] at hr
    split_ifs at hr
    · simp at hr
    · simp only [List.mem_singleton] at hr
      subst hr
      exact trimEndL_idem buf
  | cons l rest ih =>
    intro buf r hr
    rw [processLinesL] at hr
    split_ifs at hr
    · exact ih _ r hr
    · rcases List.mem_cons.mp hr with h | h
      · subst h
        exact trimEndL_idem _
      · exact ih [] r h

theorem processLines_no_nl (ls : List (List Char)) (hls : ∀ l ∈ ls, '\n' ∉ l) :
    ∀ buf, '\n' ∉ buf → ∀ r ∈ processLinesL ls buf, '\n' ∉ r := by
  induction ls with
  | nil =>
    intro buf hbuf r hr
    rw [processLinesL] at hr
    split_ifs at hr
    · simp at hr
    · simp only [List.mem_singleton] at hr
      subst hr
      exact fun hm => hbuf (trimEndL_subset buf hm)
  | cons l rest ih =>
    intro buf hbuf r hr
    rw [processLinesL] at hr
    split_ifs at hr
    · refine ih (fun x hx => hls x (by simp [hx])) _ ?_ r hr
      intro hm
      rcases List.mem_append.mp hm with h2 | h2
      · rcases List.mem_append.mp h2 with h3 | h3
        · exact hbuf h3
        · exact hls l (by simp)
            (trimEndL_subset l ((List.dropLast_sublist (trimEndL l)).subset h3))
      · simp at h2
    · rcases List.mem_cons.mp hr with h | h
      · subst h
        intro hm
        rcases List.mem_append.mp (trimEndL_subset _ hm) with h2 | h2
        · exact hbuf h2
        · exact hls l (by simp) (trimEndL_subset l h2)
      · exact ih (fun x hx => hls x (by simp [hx])) [] (by simp) r h

theorem splitNL_append {l : List Char} (hnl : '\n' ∉ l) (r : List Char) :
    splitNL (l ++ '\n' :: r) = l :: splitNL r := by
  induction l with
  | nil =>
    rw [List.nil_append, splitNL, if_pos rfl]
  | cons c cs ih =>
    have hc : c ≠ '\n' := fun h => hnl (by simp [h])
    rw [List.cons_append, splitNL, if_neg hc, ih (fun hm => hnl (by simp [hm]))]

theorem getLast?_cons_of_ne_nil {α : Type} (a : α) {t : List α} (h : t ≠ []) :
    (a :: t).getLast? = t.getLast? := by
  have h2 := getLast?_append_of_ne_nil [a] h
  simpa using h2

theorem rustLinesL_joinNL {L : List (List Char)}
    (h : ∀ l ∈ L, '\n' ∉ l ∧ l.getLast? ≠ some '\r') :
    rustLinesL (joinNL L) = L := by
  induction L with
  | nil => rfl
  | cons l rest ih =>
    have hjoin : joinNL (l :: rest) = l ++ '\n' :: joinNL rest := by
      show (l ++ ['\n']) ++ joinNL rest = _
      simp
    have ih' := ih (fun x hx => h x (by simp [hx]))
    have hstrip : stripCR l = l := by
      unfold stripCR
      rw [if_neg (h l (by simp)).2]
    have hne := splitNL_ne_nil (joinNL rest)
    have ih2 : List.map stripCR (if (splitNL (joinNL rest)).getLast? = some [] then
        (splitNL (joinNL rest)).dropLast else splitNL (joinNL rest)) = rest := ih'
    show (let segs := splitNL (joinNL (l :: rest))
      List.map stripCR (if segs.getLast? = some [] then segs.dropLast else segs)) = l :: rest
    rw [hjoin, splitNL_append (h l (by simp)).1]
    show List.map stripCR (if (l :: splitNL (joinNL rest)).getLast? = some [] then
        (l :: splitNL (joinNL rest)).dropLast else l :: splitNL (joinNL rest)) = l :: rest
    rw [getLast?_cons_of_ne_nil l hne]
    by_cases hcond : (splitNL (joinNL rest)).getLast? = some []
    · rw [if_pos hcond] at ih2 ⊢
      rw [List.dropLast_cons_of_ne_nil hne, List.map_cons, hstrip, ih2]
    · rw [if_neg hcond] at ih2 ⊢
      rw [List.map_cons, hstrip, ih2]

theorem processLines_fixed {L : List (List Char)}
    (h : ∀ l ∈ L, trimEndL l = l ∧ l.getLast? ≠ some '\\') :
    processLinesL L [] = L := by
  induction L with
  | nil => rfl
  | cons l rest ih =>
    obtain ⟨ht, hbs⟩ := h l (by simp)
    have hcond : ¬ (trimEndL l).getLast? = some '\\' := by
      rw [ht]
      exact hbs
    rw [processLinesL, if_neg hcond, List.nil_append, ht, ht,
      ih (fun x hx => h x (by simp [hx]))]

/-- C10 counterexample: on the input `a\\` (a trailing escaped backslash),
the first pass outputs `a\` + newline, whose line ends in a backslash; the
second pass treats it as a continuation and outputs `a` + newline, so the
preprocessor is not idempotent. -/
theorem claim_C10_counterexample :
    preprocessEscapedNewlines "a\\\\" = "a\\\n"
    ∧ preprocessEscapedNewlines (preprocessEscapedNewlines "a\\\\") = "a\n"
    ∧ preprocessEscapedNewlines (preprocessEscapedNewlines "a\\\\")
      ≠ preprocessEscapedNewlines "a\\\\" :=
  ⟨by decide, by decide, by decide⟩

/-- C10 amended: every output line carries no trailing whitespace (it is
`trimEndL`-fixed), and the preprocessor is idempotent on every input whose
output contains no line ending in a backslash — the only way a second pass
can differ (an escaped backslash at a line's trimmed end survives the first
pass and is consumed by the second, see the counterexample). -/
theorem claim_C10_amended_idempotent (s : String)
    (h : ∀ l ∈ processLinesL (rustLinesL s.toList) [], l.getLast? ≠ some '\\') :
    (∀ l ∈ processLinesL (rustLinesL s.toList) [], trimEndL l = l)
    ∧ preprocessEscapedNewlines (preprocessEscapedNewlines s)
      = preprocessEscapedNewlines s := by
  have hTr : ∀ l ∈ processLinesL (rustLinesL s.toList) [], trimEndL l = l :=
    fun l hl => processLines_trimmed (rustLinesL s.toList) [] l hl
  refine ⟨hTr, ?_⟩
  have hNL : ∀ l ∈ processLinesL (rustLinesL s.toList) [], '\n' ∉ l :=
    processLines_no_nl (rustLinesL s.toList) (rustLines_no_nl s.toList) [] (by simp)
  have hCR : ∀ l ∈ processLinesL (rustLinesL s.toList) [], l.getLast? ≠ some '\r' := by
    intro l hl hcr
    have hw := trimEndL_getLast_not_ws (hTr l hl) hcr
    exact absurd hw (by decide)
  show String.mk (joinNL (processLinesL (rustLinesL
      (String.mk (joinNL (processLinesL (rustLinesL s.toList) []))).toList) []))
    = String.mk (joinNL (processLinesL (rustLinesL s.toList) []))
  have hlist : (String.mk (joinNL (processLinesL (rustLinesL s.toList) []))).toList
      = joinNL (processLinesL (rustLinesL s.toList) []) := rfl
  rw [hlist, rustLinesL_joinNL (fun l hl => ⟨hNL l hl, hCR l hl⟩),
    processLines_fixed (fun l hl => ⟨hTr l hl, h l hl⟩)]

/-- C10 witness: the input `x \` / `y` / `z` joins its continuation in the
first pass and a second pass changes nothing. -/
theorem claim_C10_witness :
    (∀ l ∈ processLinesL (rustLinesL ("x \\\ny\nz" : String).toList) [],
      l.getLast? ≠ some '\\')
    ∧ preprocessEscapedNewlines (preprocessEscapedNewlines "x \\\ny\nz")
      = preprocessEscapedNewlines "x \\\ny\nz" := by
  have hh : ∀ l ∈ processLinesL (rustLinesL ("x \\\ny\nz" : String).toList) [],
      l.getLast? ≠ some '\\' := by decide
  exact ⟨hh, (claim_C10_amended_idempotent "x \\\ny\nz" hh).2⟩
